import Mathlib

/-!
Verification of the SiteCrafter file-tree core (src/frontend/src/pages/Builder.tsx):
the action reconciler (useEffect, lines 58-111), the mount projector
(createMountStructure / processFile, lines 113-148) and the editor mutation
(handleCodeChange / updateFileContent, lines 35-56), shallowly embedded as
executable Lean functions over the tree data model.
-/

namespace SiteCrafter

/-- Kind of a tree node, mirroring FileItem.type : 'file' | 'folder'. -/
inductive FileType where
  | file
  | folder
deriving DecidableEq, Repr

/-- Status of a build step, mirroring the "pending" / "completed" string states.
Modelled from the spec: the Step declaration lives in src/frontend/src/hooks/types,
which is absent from src; §3 gives the two-state status (Pending | Completed). -/
inductive StepStatus where
  | pending
  | completed
deriving DecidableEq, Repr

/-- Kind of a build step. Modelled from the spec: the StepType declaration lives in
src/frontend/src/hooks/types, absent from src; §3 describes the action as
polymorphic over CreateFile, RunCommand, ..., and Builder.tsx only ever
discriminates on StepType.CreateFile. -/
inductive StepType where
  | CreateFile
  | RunCommand
deriving DecidableEq, Repr

/-- A build step (action). Modelled from the spec: fields follow §3
(kind, path, payload, status) and their usage in Builder.tsx
(step.type, step.path possibly absent, step.code, step.status). -/
structure Step where
  type : StepType
  path : Option String
  code : String
  status : StepStatus
deriving DecidableEq, Repr

/-- A tree node, mirroring the FileItem record used by Builder.tsx:
name, path, type, optional content, optional children list.
Declared as a single-constructor inductive because the children are recursive. -/
inductive FileItem where
  | mk (name : String) (path : String) (type : FileType)
      (content : Option String) (children : Option (List FileItem))

/-- Node name accessor. -/
def FileItem.name : FileItem → String
  | .mk n _ _ _ _ => n

/-- Node path accessor. -/
def FileItem.path : FileItem → String
  | .mk _ p _ _ _ => p

/-- Node kind accessor. -/
def FileItem.type : FileItem → FileType
  | .mk _ _ t _ _ => t

/-- Node content accessor. -/
def FileItem.content : FileItem → Option String
  | .mk _ _ _ c _ => c

/-- Node children accessor. -/
def FileItem.children : FileItem → Option (List FileItem)
  | .mk _ _ _ _ ch => ch

/-- Character-level worker for splitting a path on '/'. -/
def splitSegsAux : List Char → List Char → List String
  | [], acc => [String.mk acc.reverse]
  | c :: cs, acc =>
    if c = '/' then String.mk acc.reverse :: splitSegsAux cs []
    else splitSegsAux cs (c :: acc)

/-- JS-style String.split on "/": always returns at least one segment,
keeps empty segments ("a//b" gives ["a", "", "b"], "" gives [""]). -/
def splitPath (p : String) : List String :=
  splitSegsAux p.data []

/-- Mirrors step.path?.split("/") ?? [] : a missing path gives no segments. -/
def splitPathOpt : Option String → List String
  | none => []
  | some p => splitPath p

/-- First node of a level whose path field equals P
(mirrors currentFileStructure.find(x => x.path === currentFolder)). -/
def findByPath : List FileItem → String → Option FileItem
  | [], _ => none
  | n :: ns, P => if n.path = P then some n else findByPath ns P

/-- Replace the first node of a level whose path field equals P
(the JS code mutates the object returned by find in place). -/
def replaceFirst : List FileItem → String → (FileItem → FileItem) → List FileItem
  | [], _, _ => []
  | n :: ns, P, f => if n.path = P then f n :: ns else n :: replaceFirst ns P f

/-- Overwrite a node's content, keeping every other field (file.content = step.code). -/
def setContent (c : String) : FileItem → FileItem
  | .mk n p t _ ch => .mk n p t (some c) ch

/-- Overwrite a node's children, keeping every other field. -/
def setChildren (ch : List FileItem) : FileItem → FileItem
  | .mk n p t c _ => .mk n p t c (some ch)

/-- Set the content of the first node at path P in a level. -/
def setContentFirst (level : List FileItem) (P : String) (c : String) : List FileItem :=
  replaceFirst level P (setContent c)

/-- Set the children of the first node at path P in a level. -/
def setChildrenFirst (level : List FileItem) (P : String) (ch : List FileItem) : List FileItem :=
  replaceFirst level P (setChildren ch)

/-- One CreateFile path walk of the reconciler (Builder.tsx lines 68-99).
pre is the accumulated prefix (currentFolder), the list argument the remaining
segments. none models the TypeError thrown when the walk dereferences the
missing children list of a node found at an intermediate prefix
(find(...)!.children! is undefined and the next find call throws). -/
def walk (level : List FileItem) (pre : String) : List String → String → Option (List FileItem)
  | [], _ => some level
  | s :: rest, c =>
    match rest with
    | [] =>
      match findByPath level (pre ++ "/" ++ s) with
      | none =>
        some (level ++ [FileItem.mk s (pre ++ "/" ++ s) .file (some c) none])
      | some _ => some (setContentFirst level (pre ++ "/" ++ s) c)
    | _ :: _ =>
      let level₁ :=
        if (findByPath level (pre ++ "/" ++ s)).isSome then level
        else level ++ [FileItem.mk s (pre ++ "/" ++ s) .folder none (some [])]
      match findByPath level₁ (pre ++ "/" ++ s) with
      | none => none
      | some node =>
        match node.children with
        | none => none
        | some ch =>
          match walk ch (pre ++ "/" ++ s) rest c with
          | none => none
          | some ch₂ => some (setChildrenFirst level₁ (pre ++ "/" ++ s) ch₂)

/-- Apply one pending step to the tree: CreateFile steps walk their path,
all other kinds leave the tree unchanged. -/
def applyStep (files : List FileItem) (s : Step) : Option (List FileItem) :=
  if s.type = StepType.CreateFile then
    walk files "" (splitPathOpt s.path) s.code
  else some files

/-- Apply a batch of steps left to right, aborting on the first thrown walk. -/
def applySteps (files : List FileItem) : List Step → Option (List FileItem)
  | [] => some files
  | s :: ss =>
    match applyStep files s with
    | none => none
    | some files' => applySteps files' ss

/-- Re-mark a step as completed, keeping its other fields. -/
def markCompleted (s : Step) : Step :=
  ⟨s.type, s.path, s.code, StepStatus.completed⟩

/-- One reconciliation pass (the useEffect on lines 58-111): filter the steps to
the pending ones; if none, neither the tree nor the step list is updated;
otherwise fold every pending CreateFile into the tree and mark the whole step
list completed. none models the pass throwing before either state update runs. -/
def reconcile (files : List FileItem) (steps : List Step) :
    Option (List FileItem × List Step) :=
  let pending := steps.filter (fun s => s.status = StepStatus.pending)
  match pending with
  | [] => some (files, steps)
  | _ :: _ =>
    match applySteps files pending with
    | none => none
    | some files' => some (files', steps.map markCompleted)

/-- A mount descriptor: either a file with contents, or a directory mapping
names to descriptors. The mapping is an association list because JS object
keys keep insertion order. -/
inductive Desc where
  | file (contents : String)
  | directory (entries : List (String × Desc))

/-- JS object assignment obj[k] = v on a string-keyed record: an existing key
keeps its position and gets the new value, a new key is appended at the end. -/
def objInsert (m : List (String × Desc)) (k : String) (v : Desc) : List (String × Desc) :=
  if m.any (fun e => e.1 = k) then
    m.map (fun e => if e.1 = k then (k, v) else e)
  else m ++ [(k, v)]

/-- Object.fromEntries: builds a JS object from a list of key-value pairs,
first occurrence fixes the position, last occurrence fixes the value. -/
def fromEntries (l : List (String × Desc)) : List (String × Desc) :=
  l.foldl (fun m e => objInsert m e.1 e.2) []

mutual

/-- processFile (Builder.tsx lines 117-143): returns the node's descriptor and
the updated shared root mapping. A folder is always written into the shared
root mapping, whatever its depth; a file is written there only at the root. -/
def processFile (st : List (String × Desc)) (isRoot : Bool) :
    FileItem → Desc × List (String × Desc)
  | .mk n _ t c ch =>
    match t with
    | .folder =>
      let r := processChildren st ch
      let d := Desc.directory (fromEntries r.1)
      (d, objInsert r.2 n d)
    | .file =>
      let d := Desc.file (c.getD "")
      (d, if isRoot then objInsert st n d else st)

/-- Children of a folder as mount entries: missing children degrade to none. -/
def processChildren (st : List (String × Desc)) :
    Option (List FileItem) → List (String × Desc) × List (String × Desc)
  | none => ([], st)
  | some l => processList st l

/-- file.children.map(child => [child.name, processFile(child, false)]),
threading the shared root mapping left to right. -/
def processList (st : List (String × Desc)) :
    List FileItem → List (String × Desc) × List (String × Desc)
  | [] => ([], st)
  | i :: is =>
    let r₁ := processFile st false i
    let r₂ := processList r₁.2 is
    ((i.name, r₁.1) :: r₂.1, r₂.2)

end

/-- createMountStructure (Builder.tsx lines 114-148): fold the root nodes into
the shared mount mapping. -/
def createMountStructure (files : List FileItem) : List (String × Desc) :=
  files.foldl (fun st f => (processFile st true f).2) []

mutual

/-- updateFileContent on a single item (Builder.tsx lines 39-52): a path match
gets the new content and returns at once; otherwise a folder with a children
field recurses; everything else is returned unchanged. -/
def updItem (selPath newC : String) : FileItem → FileItem
  | .mk n p t c ch =>
    if p = selPath then .mk n p t (some newC) ch
    else
      match t, ch with
      | .folder, some l => .mk n p .folder c (some (updateFileContent selPath newC l))
      | _, _ => .mk n p t c ch

/-- updateFileContent over a level: items.map(item => ...). -/
def updateFileContent (selPath newC : String) : List FileItem → List FileItem
  | [] => []
  | i :: is => updItem selPath newC i :: updateFileContent selPath newC is

end

/-- handleCodeChange (Builder.tsx lines 35-56): without a selected file the
tree is untouched, otherwise content is replaced at the selected file's path. -/
def handleCodeChange (selected : Option FileItem) (newContent : String)
    (files : List FileItem) : List FileItem :=
  match selected with
  | none => files
  | some sel => updateFileContent sel.path newContent files

/-- Flat observation of one node: every field except the children list. -/
structure FlatEntry where
  name : String
  path : String
  type : FileType
  content : Option String
deriving DecidableEq, Repr

mutual

/-- Preorder flattening of a node into flat entries. -/
def flattenItem : FileItem → List FlatEntry
  | .mk n p t c ch => ⟨n, p, t, c⟩ :: flattenChildren ch

/-- Preorder flattening of an optional children list. -/
def flattenChildren : Option (List FileItem) → List FlatEntry
  | none => []
  | some l => flattenList l

/-- Preorder flattening of a level. -/
def flattenList : List FileItem → List FlatEntry
  | [] => []
  | i :: is => flattenItem i ++ flattenList is

end

/-- All flat entries of the tree carrying a given path field. -/
def entriesAt (l : List FileItem) (q : String) : List FlatEntry :=
  (flattenList l).filter (fun e => e.path = q)

/-- The running prefixes a walk of the given segments accumulates from pre. -/
def runningPrefixes (pre : String) : List String → List String
  | [] => []
  | s :: rest => (pre ++ "/" ++ s) :: runningPrefixes (pre ++ "/" ++ s) rest

/-- The full set of prefix paths a step's walk can touch. -/
def stepPrefixes (s : Step) : List String :=
  runningPrefixes "" (splitPathOpt s.path)

/-- Navigate the tree by path segments exactly the way the walk does:
find the first node at each accumulated prefix, descend through its
children list, and return the node found at the final segment. -/
def lookupPath (level : List FileItem) (pre : String) : List String → Option FileItem
  | [] => none
  | s :: rest =>
    match rest with
    | [] => findByPath level (pre ++ "/" ++ s)
    | _ :: _ =>
      match findByPath level (pre ++ "/" ++ s) with
      | none => none
      | some node =>
        match node.children with
        | none => none
        | some ch => lookupPath ch (pre ++ "/" ++ s) rest

mutual

/-- Every file-kind node in the subtree lacks a children field
(true of every tree the reconciler builds). -/
def filesChildless : FileItem → Bool
  | .mk _ _ t _ ch =>
    (match t, ch with
     | .file, some _ => false
     | _, _ => true) && filesChildlessOpt ch

/-- filesChildless over an optional children list. -/
def filesChildlessOpt : Option (List FileItem) → Bool
  | none => true
  | some l => filesChildlessList l

/-- filesChildless over a level. -/
def filesChildlessList : List FileItem → Bool
  | [] => true
  | i :: is => filesChildless i && filesChildlessList is

end

mutual

/-- Erase every content field in a node, keeping the whole skeleton
(name, path, type, children structure). -/
def stripItem : FileItem → FileItem
  | .mk n p t _ ch => .mk n p t none (stripChildren ch)

/-- stripItem over an optional children list. -/
def stripChildren : Option (List FileItem) → Option (List FileItem)
  | none => none
  | some l => some (stripList l)

/-- stripItem over a level. -/
def stripList : List FileItem → List FileItem
  | [] => []
  | i :: is => stripItem i :: stripList is

end

/-- The effect of an edit at path p with content c on one flat entry. -/
def updEntry (p c : String) (e : FlatEntry) : FlatEntry :=
  if e.path = p then ⟨e.name, e.path, e.type, some c⟩ else e

/-- Number of flat entries carrying path p. -/
def pathCount (l : List FlatEntry) (p : String) : Nat :=
  (l.filter (fun e => e.path = p)).length

/-! Helper lemmas shared by the claim theorems. -/

@[simp]
theorem flattenList_nil : flattenList [] = [] := rfl

@[simp]
theorem flattenList_cons (i : FileItem) (is : List FileItem) :
    flattenList (i :: is) = flattenItem i ++ flattenList is := rfl

@[simp]
theorem flattenItem_mk (n p : String) (t : FileType) (c : Option String)
    (ch : Option (List FileItem)) :
    flattenItem (.mk n p t c ch) = ⟨n, p, t, c⟩ :: flattenChildren ch := rfl

theorem flattenList_append (l₁ l₂ : List FileItem) :
    flattenList (l₁ ++ l₂) = flattenList l₁ ++ flattenList l₂ := by
  induction l₁ with
  | nil => rfl
  | cons i is ih => simp [ih]

theorem entriesAt_append (l₁ l₂ : List FileItem) (q : String) :
    entriesAt (l₁ ++ l₂) q = entriesAt l₁ q ++ entriesAt l₂ q := by
  simp [entriesAt, flattenList_append, List.filter_append]

theorem findByPath_append_of_none (l l₂ : List FileItem) (P : String)
    (h : findByPath l P = none) :
    findByPath (l ++ l₂) P = findByPath l₂ P := by
  induction l with
  | nil => rfl
  | cons n ns ih =>
    simp only [findByPath] at h ⊢
    by_cases hp : n.path = P
    · simp [hp] at h
    · simp only [if_neg hp] at h ⊢
      exact ih h

theorem replaceFirst_append_of_none (l l₂ : List FileItem) (P : String)
    (f : FileItem → FileItem) (h : findByPath l P = none) :
    replaceFirst (l ++ l₂) P f = l ++ replaceFirst l₂ P f := by
  induction l with
  | nil => rfl
  | cons n ns ih =>
    simp only [findByPath] at h
    by_cases hp : n.path = P
    · simp [hp] at h
    · simp only [if_neg hp] at h
      simp only [List.cons_append, replaceFirst, if_neg hp]
      exact congrArg (List.cons n) (ih h)

/-- Unfolding of the walk at a final segment. -/
theorem walk_single (level : List FileItem) (pre s c : String) :
    walk level pre [s] c =
      match findByPath level (pre ++ "/" ++ s) with
      | none => some (level ++ [FileItem.mk s (pre ++ "/" ++ s) .file (some c) none])
      | some _ => some (setContentFirst level (pre ++ "/" ++ s) c) := rfl

/-- Unfolding of the walk at a non-final segment. -/
theorem walk_cons_cons (level : List FileItem) (pre s s₂ : String)
    (rest₂ : List String) (c : String) :
    walk level pre (s :: s₂ :: rest₂) c =
      match findByPath
          (if (findByPath level (pre ++ "/" ++ s)).isSome then level
           else level ++ [FileItem.mk s (pre ++ "/" ++ s) .folder none (some [])])
          (pre ++ "/" ++ s) with
      | none => none
      | some node =>
        match node.children with
        | none => none
        | some ch =>
          match walk ch (pre ++ "/" ++ s) (s₂ :: rest₂) c with
          | none => none
          | some ch₂ =>
            some (setChildrenFirst
              (if (findByPath level (pre ++ "/" ++ s)).isSome then level
               else level ++ [FileItem.mk s (pre ++ "/" ++ s) .folder none (some [])])
              (pre ++ "/" ++ s) ch₂) := rfl

theorem splitSegsAux_ne_nil (cs : List Char) (acc : List Char) :
    splitSegsAux cs acc ≠ [] := by
  induction cs generalizing acc with
  | nil => simp [splitSegsAux]
  | cons c cs ih =>
    simp only [splitSegsAux]
    by_cases hc : c = '/'
    · simp [hc]
    · simp only [if_neg hc]
      exact ih _

theorem splitPath_ne_nil (p : String) : splitPath p ≠ [] :=
  splitSegsAux_ne_nil _ _

@[simp]
theorem flattenChildren_none : flattenChildren none = [] := rfl

@[simp]
theorem flattenChildren_some (l : List FileItem) : flattenChildren (some l) = flattenList l := rfl

theorem entriesAt_cons (n : FileItem) (ns : List FileItem) (q : String) :
    entriesAt (n :: ns) q =
      (flattenItem n).filter (fun e => e.path = q) ++ entriesAt ns q := by
  simp [entriesAt, List.filter_append]

theorem filter_flattenItem_mk (nm p : String) (t : FileType) (ct : Option String)
    (ch : Option (List FileItem)) (q : String) (hpq : ¬p = q) :
    (flattenItem (.mk nm p t ct ch)).filter (fun e => e.path = q) =
      (flattenChildren ch).filter (fun e => e.path = q) := by
  simp [List.filter_cons, hpq]

theorem entriesAt_setContentFirst (l : List FileItem) (P c q : String) (hq : q ≠ P) :
    entriesAt (setContentFirst l P c) q = entriesAt l q := by
  induction l with
  | nil => rfl
  | cons n ns ih =>
    cases n with
    | mk nm p t ct ch =>
    simp only [setContentFirst, replaceFirst, FileItem.path] at ih ⊢
    by_cases hp : p = P
    · rw [if_pos hp]
      have hpq : ¬p = q := fun h => hq (h ▸ hp ▸ rfl)
      simp only [setContent, entriesAt_cons, filter_flattenItem_mk _ _ _ _ _ _ hpq]
    · rw [if_neg hp]
      rw [entriesAt_cons, entriesAt_cons, ih]

theorem entriesAt_setChildrenFirst (l : List FileItem) (P : String) (node : FileItem)
    (ch ch₂ : List FileItem) (q : String) (hq : q ≠ P)
    (hfind : findByPath l P = some node) (hch : node.children = some ch)
    (hrec : entriesAt ch₂ q = entriesAt ch q) :
    entriesAt (setChildrenFirst l P ch₂) q = entriesAt l q := by
  induction l with
  | nil => cases hfind
  | cons n ns ih =>
    cases n with
    | mk nm p t ct chn =>
    simp only [setChildrenFirst, replaceFirst, findByPath, FileItem.path] at hfind ih ⊢
    by_cases hp : p = P
    · rw [if_pos hp] at hfind ⊢
      simp only [Option.some.injEq] at hfind
      have hpq : ¬p = q := fun h => hq (h ▸ hp ▸ rfl)
      have hchn : chn = some ch := by
        rw [← hfind] at hch
        simpa [FileItem.children] using hch
      simp only [setChildren, entriesAt_cons,
        filter_flattenItem_mk _ _ _ _ _ _ hpq, hchn, flattenChildren_some]
      rw [show entriesAt ch₂ q = (flattenList ch₂).filter (fun e => e.path = q) from rfl,
        show entriesAt ch q = (flattenList ch).filter (fun e => e.path = q) from rfl] at hrec
      rw [hrec]
    · rw [if_neg hp] at hfind ⊢
      rw [entriesAt_cons, entriesAt_cons, ih hfind]

theorem entriesAt_singleton_mk (nm p : String) (t : FileType) (ct : Option String)
    (ch : Option (List FileItem)) (q : String)
    (hpq : ¬p = q) (hfl : flattenChildren ch = []) :
    entriesAt [FileItem.mk nm p t ct ch] q = [] := by
  simp [entriesAt, List.filter_cons, hpq, hfl]

/-- Frame property of one CreateFile walk: the entries of the tree at any path
that is not among the walk's running prefixes are untouched. -/
theorem walk_frame (segs : List String) :
    ∀ (level : List FileItem) (pre c : String) (level' : List FileItem) (q : String),
      walk level pre segs c = some level' → q ∉ runningPrefixes pre segs →
      entriesAt level' q = entriesAt level q := by
  induction segs with
  | nil =>
    intro level pre c level' q hw _
    simp only [walk, Option.some.injEq] at hw
    rw [← hw]
  | cons s rest ih =>
    intro level pre c level' q hw hq
    simp only [runningPrefixes, List.mem_cons, not_or] at hq
    obtain ⟨hq1, hq2⟩ := hq
    cases rest with
    | nil =>
      rw [walk_single] at hw
      cases hfind : findByPath level (pre ++ "/" ++ s) with
      | none =>
        rw [hfind] at hw
        simp only [Option.some.injEq] at hw
        rw [← hw, entriesAt_append,
          entriesAt_singleton_mk s (pre ++ "/" ++ s) .file (some c) none q
            (fun h => hq1 h.symm) rfl, List.append_nil]
      | some m =>
        rw [hfind] at hw
        simp only [Option.some.injEq] at hw
        rw [← hw]
        exact entriesAt_setContentFirst _ _ _ _ hq1
    | cons s₂ rest₂ =>
      rw [walk_cons_cons] at hw
      cases hfind : findByPath level (pre ++ "/" ++ s) with
      | some node =>
        simp only [hfind, Option.isSome_some, if_true] at hw
        cases hch : node.children with
        | none => simp only [hch] at hw; exact Option.noConfusion hw
        | some ch =>
          simp only [hch] at hw
          cases hrec : walk ch (pre ++ "/" ++ s) (s₂ :: rest₂) c with
          | none => simp only [hrec] at hw; exact Option.noConfusion hw
          | some ch₂ =>
            simp only [hrec, Option.some.injEq] at hw
            rw [← hw]
            exact entriesAt_setChildrenFirst level _ node ch ch₂ q hq1 hfind hch
              (ih ch _ c ch₂ q hrec hq2)
      | none =>
        simp only [hfind, Option.isSome_none, Bool.false_eq_true, if_false] at hw
        rw [findByPath_append_of_none _ _ _ hfind] at hw
        simp only [findByPath, FileItem.path, FileItem.children, if_pos] at hw
        cases hrec : walk [] (pre ++ "/" ++ s) (s₂ :: rest₂) c with
        | none => simp only [hrec] at hw; exact Option.noConfusion hw
        | some ch₂ =>
          simp only [hrec, Option.some.injEq] at hw
          rw [← hw]
          have hfind2 : findByPath
              (level ++ [FileItem.mk s (pre ++ "/" ++ s) .folder none (some [])])
              (pre ++ "/" ++ s) =
              some (FileItem.mk s (pre ++ "/" ++ s) .folder none (some [])) := by
            rw [findByPath_append_of_none _ _ _ hfind]
            simp [findByPath, FileItem.path]
          rw [entriesAt_setChildrenFirst _ _ _ [] ch₂ q hq1 hfind2 rfl
              (ih [] _ c ch₂ q hrec hq2),
            entriesAt_append,
            entriesAt_singleton_mk s (pre ++ "/" ++ s) .folder none (some []) q
              (fun h => hq1 h.symm) rfl, List.append_nil]

/-- Frame property of a whole batch: paths outside every applied CreateFile
step's prefixes keep exactly their entries. -/
theorem applySteps_frame (steps : List Step) :
    ∀ (files files' : List FileItem) (q : String),
      applySteps files steps = some files' →
      (∀ s ∈ steps, s.type = StepType.CreateFile → q ∉ stepPrefixes s) →
      entriesAt files' q = entriesAt files q := by
  induction steps with
  | nil =>
    intro files files' q h _
    simp only [applySteps, Option.some.injEq] at h
    rw [← h]
  | cons s ss ih =>
    intro files files' q h hcond
    simp only [applySteps] at h
    cases happ : applyStep files s with
    | none => rw [happ] at h; exact Option.noConfusion h
    | some f₁ =>
      rw [happ] at h
      have h2 : entriesAt files' q = entriesAt f₁ q :=
        ih f₁ files' q h (fun t ht htype => hcond t (List.mem_cons_of_mem _ ht) htype)
      have h1 : entriesAt f₁ q = entriesAt files q := by
        unfold applyStep at happ
        by_cases hty : s.type = StepType.CreateFile
        · rw [if_pos hty] at happ
          exact walk_frame (splitPathOpt s.path) files "" s.code f₁ q happ
            (hcond s (List.mem_cons_self _ _) hty)
        · rw [if_neg hty] at happ
          simp only [Option.some.injEq] at happ
          rw [← happ]
      rw [h2, h1]

/-! C4 -/

/-- C4 counterexample: the claim quantifies over every action list with a
Pending action, but a pending CreateFile whose path walks through an existing
File node makes the pass throw before any status update: nothing is marked
Completed. -/
theorem c4_counterexample_crash_skips_sweep :
    reconcile [FileItem.mk "q" "/q" .file none none]
      [⟨StepType.CreateFile, some "q/r", "v", .pending⟩] = none ∧
    (⟨StepType.CreateFile, some "q/r", "v", .pending⟩ : Step).status =
      StepStatus.pending :=
  ⟨rfl, rfl⟩

/-- C4 amended: if at least one action is Pending and the reconciliation pass
completes without raising, then every action of the full list ends up
Completed, and the pass leaves the tree's entries untouched at every path that
is not among the prefix paths of some pending CreateFile action - in
particular an already Completed action's effect is not reapplied and the tree
at its path is untouched. -/
theorem c4_completion_sweep (files : List FileItem) (steps : List Step)
    (r : List FileItem × List Step)
    (hp : ∃ s ∈ steps, s.status = StepStatus.pending)
    (hr : reconcile files steps = some r) :
    (∀ s ∈ r.2, s.status = StepStatus.completed) ∧
    (∀ q : String,
      (∀ s ∈ steps, s.status = StepStatus.pending → s.type = StepType.CreateFile →
        q ∉ stepPrefixes s) →
      entriesAt r.1 q = entriesAt files q) := by
  unfold reconcile at hr
  cases hfil : steps.filter (fun s => s.status = StepStatus.pending) with
  | nil =>
    exfalso
    obtain ⟨s, hs, hpend⟩ := hp
    have hmem : s ∈ steps.filter (fun s => s.status = StepStatus.pending) :=
      List.mem_filter.mpr ⟨hs, by simp [hpend]⟩
    rw [hfil] at hmem
    cases hmem
  | cons s₀ ss₀ =>
    simp only [hfil] at hr
    cases happ : applySteps files (s₀ :: ss₀) with
    | none => simp only [happ] at hr; exact Option.noConfusion hr
    | some files' =>
      simp only [happ, Option.some.injEq] at hr
      subst hr
      constructor
      · intro s hs
        simp only [List.mem_map] at hs
        obtain ⟨t, _, ht⟩ := hs
        rw [← ht]
        rfl
      · intro q hcond
        refine applySteps_frame (s₀ :: ss₀) files files' q happ ?_
        intro s hs hty
        rw [← hfil] at hs
        obtain ⟨hmem, hpend⟩ := List.mem_filter.mp hs
        exact hcond s hmem (by simpa using hpend) hty

/-- Witness for C4 applied to the batch [A pending at x.txt, B completed at
y.txt] on the empty tree: B is re-marked Completed and the path /y.txt is
untouched. -/
theorem c4_completion_sweep_witness :
    (Step.mk StepType.CreateFile (some "y.txt") "cb" StepStatus.completed).status =
      StepStatus.completed ∧
    entriesAt [FileItem.mk "x.txt" "/x.txt" .file (some "ca") none] "/y.txt" =
      entriesAt [] "/y.txt" := by
  have h := c4_completion_sweep []
    [⟨StepType.CreateFile, some "x.txt", "ca", .pending⟩,
     ⟨StepType.CreateFile, some "y.txt", "cb", .completed⟩]
    ([FileItem.mk "x.txt" "/x.txt" .file (some "ca") none],
     [⟨StepType.CreateFile, some "x.txt", "ca", .completed⟩,
      ⟨StepType.CreateFile, some "y.txt", "cb", .completed⟩])
    (by decide) rfl
  exact ⟨h.1 _ (by simp), h.2 "/y.txt" (by decide)⟩

/-- Unfolding of lookupPath at a final segment. -/
theorem lookupPath_single (level : List FileItem) (pre s : String) :
    lookupPath level pre [s] = findByPath level (pre ++ "/" ++ s) := rfl

/-- Unfolding of lookupPath at a non-final segment. -/
theorem lookupPath_cons_cons (level : List FileItem) (pre s s₂ : String)
    (rest₂ : List String) :
    lookupPath level pre (s :: s₂ :: rest₂) =
      match findByPath level (pre ++ "/" ++ s) with
      | none => none
      | some node =>
        match node.children with
        | none => none
        | some ch => lookupPath ch (pre ++ "/" ++ s) (s₂ :: rest₂) := rfl

theorem lookupPath_nil (pre : String) (segs : List String) :
    lookupPath [] pre segs = none := by
  cases segs with
  | nil => rfl
  | cons s rest =>
    cases rest with
    | nil => rfl
    | cons a b => rfl

theorem findByPath_replaceFirst (l : List FileItem) (P : String)
    (f : FileItem → FileItem) (m : FileItem) (hf : ∀ x, (f x).path = x.path) :
    findByPath l P = some m →
    findByPath (replaceFirst l P f) P = some (f m) := by
  induction l with
  | nil => intro h; cases h
  | cons n ns ih =>
    intro hfind
    simp only [findByPath, replaceFirst] at hfind ⊢
    by_cases hp : n.path = P
    · rw [if_pos hp] at hfind ⊢
      simp only [Option.some.injEq] at hfind
      subst hfind
      simp [findByPath, hf, hp]
    · rw [if_neg hp] at hfind ⊢
      simp only [findByPath, if_neg hp]
      exact ih hfind

theorem setContent_path (c : String) (x : FileItem) : (setContent c x).path = x.path := by
  cases x; rfl

theorem setChildren_path (ch : List FileItem) (x : FileItem) :
    (setChildren ch x).path = x.path := by
  cases x; rfl

theorem setChildren_children (ch : List FileItem) (x : FileItem) :
    (setChildren ch x).children = some ch := by
  cases x; rfl

theorem setContent_content (c : String) (x : FileItem) :
    (setContent c x).content = some c := by
  cases x; rfl

theorem setContent_type (c : String) (x : FileItem) :
    (setContent c x).type = x.type := by
  cases x; rfl

/-- After a successful CreateFile walk, navigating the result along the same
segments reaches a node holding the walked payload, whose kind is the prior
node's kind at those segments, or file when nothing was there before. -/
theorem walk_lookup (segs : List String) :
    ∀ (level : List FileItem) (pre c : String) (level' : List FileItem),
      segs ≠ [] → walk level pre segs c = some level' →
      ∃ n, lookupPath level' pre segs = some n ∧ n.content = some c ∧
        n.type = ((lookupPath level pre segs).map FileItem.type).getD FileType.file := by
  induction segs with
  | nil => intro level pre c level' hne; exact absurd rfl hne
  | cons s rest ih =>
    intro level pre c level' _ hw
    cases rest with
    | nil =>
      rw [walk_single] at hw
      cases hfind : findByPath level (pre ++ "/" ++ s) with
      | none =>
        rw [hfind] at hw
        simp only [Option.some.injEq] at hw
        subst hw
        refine ⟨FileItem.mk s (pre ++ "/" ++ s) .file (some c) none, ?_, rfl, ?_⟩
        · rw [lookupPath_single, findByPath_append_of_none _ _ _ hfind]
          simp [findByPath, FileItem.path]
        · simp [lookupPath_single, hfind, FileItem.type]
      | some m =>
        rw [hfind] at hw
        simp only [Option.some.injEq] at hw
        subst hw
        refine ⟨setContent c m, ?_, setContent_content c m, ?_⟩
        · rw [lookupPath_single]
          exact findByPath_replaceFirst level _ _ m (setContent_path c) hfind
        · rw [lookupPath_single, hfind]
          simp [setContent_type]
    | cons s₂ rest₂ =>
      rw [walk_cons_cons] at hw
      cases hfind : findByPath level (pre ++ "/" ++ s) with
      | some node =>
        simp only [hfind, Option.isSome_some, if_true] at hw
        cases hch : node.children with
        | none => simp only [hch] at hw; exact Option.noConfusion hw
        | some ch =>
          simp only [hch] at hw
          cases hrec : walk ch (pre ++ "/" ++ s) (s₂ :: rest₂) c with
          | none => simp only [hrec] at hw; exact Option.noConfusion hw
          | some ch₂ =>
            simp only [hrec, Option.some.injEq] at hw
            subst hw
            obtain ⟨n, hl, hc, ht⟩ := ih ch (pre ++ "/" ++ s) c ch₂ (by simp) hrec
            refine ⟨n, ?_, hc, ?_⟩
            · rw [lookupPath_cons_cons]
              simp only [setChildrenFirst]
              rw [findByPath_replaceFirst level _ _ node (setChildren_path ch₂) hfind]
              simp only [setChildren_children]
              exact hl
            · rw [lookupPath_cons_cons, hfind]
              simp only [hch]
              exact ht
      | none =>
        simp only [hfind, Option.isSome_none, Bool.false_eq_true, if_false] at hw
        rw [findByPath_append_of_none _ _ _ hfind] at hw
        simp only [findByPath, FileItem.path, FileItem.children, if_pos] at hw
        cases hrec : walk [] (pre ++ "/" ++ s) (s₂ :: rest₂) c with
        | none => simp only [hrec] at hw; exact Option.noConfusion hw
        | some ch₂ =>
          simp only [hrec, Option.some.injEq] at hw
          subst hw
          obtain ⟨n, hl, hc, ht⟩ := ih [] (pre ++ "/" ++ s) c ch₂ (by simp) hrec
          have hfind2 : findByPath
              (level ++ [FileItem.mk s (pre ++ "/" ++ s) .folder none (some [])])
              (pre ++ "/" ++ s) =
              some (FileItem.mk s (pre ++ "/" ++ s) .folder none (some [])) := by
            rw [findByPath_append_of_none _ _ _ hfind]
            simp [findByPath, FileItem.path]
          refine ⟨n, ?_, hc, ?_⟩
          · rw [lookupPath_cons_cons]
            simp only [setChildrenFirst]
            rw [findByPath_replaceFirst _ _ _ _ (setChildren_path ch₂) hfind2]
            simp only [setChildren_children]
            exact hl
          · rw [lookupPath_cons_cons, hfind, ht]
            simp [lookupPath_nil]

/-! C5 -/

/-- C5 counterexample: applying two Pending CreateFile actions with the same
path a and different payloads to a tree that already holds a Folder at /a does
not yield a File node at that path: the node stays a folder (now carrying a
content field), so there are zero File nodes at /a. -/
theorem c5_counterexample_folder_not_file :
    reconcile [FileItem.mk "a" "/a" .folder none (some [])]
      [⟨StepType.CreateFile, some "a", "p1", .pending⟩,
       ⟨StepType.CreateFile, some "a", "p2", .pending⟩] =
      some ([FileItem.mk "a" "/a" .folder (some "p2") (some [])],
            [⟨StepType.CreateFile, some "a", "p1", .completed⟩,
             ⟨StepType.CreateFile, some "a", "p2", .completed⟩]) ∧
    (entriesAt [FileItem.mk "a" "/a" .folder (some "p2") (some [])] "/a").filter
        (fun e => e.type = FileType.file) = [] :=
  ⟨rfl, rfl⟩

/-- C5 amended: when the pass over two Pending CreateFile actions with the same
path and different payloads completes, the node reached at that path holds the
later payload as content; it is a File when the path was previously vacant (and
in general keeps exactly the prior node's kind) - re-applying a creation action
to an existing path overwrites only content, never kind. -/
theorem c5_last_writer_wins (files : List FileItem) (p c1 c2 : String)
    (r : List FileItem × List Step) (hne : c1 ≠ c2)
    (hr : reconcile files
        [⟨StepType.CreateFile, some p, c1, .pending⟩,
         ⟨StepType.CreateFile, some p, c2, .pending⟩] = some r) :
    ∃ n, lookupPath r.1 "" (splitPath p) = some n ∧ n.content = some c2 ∧
      n.type = ((lookupPath files "" (splitPath p)).map FileItem.type).getD
        FileType.file := by
  unfold reconcile at hr
  have hfil : ([(⟨StepType.CreateFile, some p, c1, .pending⟩ : Step),
      ⟨StepType.CreateFile, some p, c2, .pending⟩].filter
        (fun s => s.status = StepStatus.pending)) =
      [⟨StepType.CreateFile, some p, c1, .pending⟩,
       ⟨StepType.CreateFile, some p, c2, .pending⟩] := rfl
  simp only [hfil] at hr
  have happ1 : applyStep files (⟨StepType.CreateFile, some p, c1, .pending⟩ : Step) =
      walk files "" (splitPath p) c1 := rfl
  have happ2 : ∀ f₁ : List FileItem,
      applyStep f₁ (⟨StepType.CreateFile, some p, c2, .pending⟩ : Step) =
      walk f₁ "" (splitPath p) c2 := fun _ => rfl
  cases hw1 : walk files "" (splitPath p) c1 with
  | none =>
    simp only [applySteps, happ1, hw1] at hr
    exact Option.noConfusion hr
  | some f₁ =>
    cases hw2 : walk f₁ "" (splitPath p) c2 with
    | none =>
      simp only [applySteps, happ1, hw1, happ2, hw2] at hr
      exact Option.noConfusion hr
    | some f₂ =>
      simp only [applySteps, happ1, hw1, happ2, hw2, Option.some.injEq] at hr
      subst hr
      obtain ⟨n₁, hl₁, hc₁, ht₁⟩ :=
        walk_lookup (splitPath p) files "" c1 f₁ (splitPath_ne_nil p) hw1
      obtain ⟨n₂, hl₂, hc₂, ht₂⟩ :=
        walk_lookup (splitPath p) f₁ "" c2 f₂ (splitPath_ne_nil p) hw2
      rw [hl₁] at ht₂
      simp only [Option.map_some', Option.getD_some] at ht₂
      exact ⟨n₂, hl₂, hc₂, ht₂.trans ht₁⟩

/-- Witness for C5 at the empty tree with path a and payloads p1 then p2. -/
theorem c5_last_writer_wins_witness :
    ∃ n, lookupPath [FileItem.mk "a" "/a" .file (some "p2") none] "" (splitPath "a") =
        some n ∧ n.content = some "p2" ∧
      n.type = ((lookupPath [] "" (splitPath "a")).map FileItem.type).getD
        FileType.file :=
  c5_last_writer_wins [] "a" "p1" "p2"
    ([FileItem.mk "a" "/a" .file (some "p2") none],
     [⟨StepType.CreateFile, some "a", "p1", .completed⟩,
      ⟨StepType.CreateFile, some "a", "p2", .completed⟩])
    (by decide) rfl

/-! C1 -/

/-- C1: the claim says the Mount Projector's output mapping has exactly the
root-level names as keys, every deeper node's descriptor being only returned to
its parent. The code instead writes every folder's descriptor into the shared
root mapping whatever its depth: for a tree with one root folder a containing a
folder b, the mount mapping has the keys b then a, not just a. -/
theorem c1_mount_root_mapping_leak :
    (createMountStructure
        [FileItem.mk "a" "/a" .folder none
          (some [FileItem.mk "b" "/a/b" .folder none (some [])])]).map Prod.fst =
      ["b", "a"] ∧
    ([FileItem.mk "a" "/a" .folder none
        (some [FileItem.mk "b" "/a/b" .folder none (some [])])]).map FileItem.name =
      ["a"] :=
  ⟨rfl, rfl⟩

/-! C2 -/

/-- C2 counterexample: the claim says reconciliation never raises, and that in
particular a File occurring as a folder prefix is silently overwritten. In the
code that walk dereferences the File's missing children list and throws: with a
File at /a and a CreateFile action at path a/b, the pass aborts (modelled none). -/
theorem c2_counterexample_raises :
    reconcile [FileItem.mk "a" "/a" .file (some "x") none]
      [⟨StepType.CreateFile, some "a/b", "y", .pending⟩] = none := rfl

/-- C2 amended: a collision at the final path segment (a Folder where a File was
expected) is indeed not detected - the folder's content field is overwritten in
place, its kind and children kept, and nothing is thrown; but when a CreateFile
path walks through an existing node without a children list (a File occurring
as a folder prefix) the pass does raise instead of overwriting. -/
theorem c2_amended_collision_behavior :
    (∀ (c₀ : Option String) (ch : Option (List FileItem)) (c : String),
      reconcile [FileItem.mk "a" "/a" .folder c₀ ch]
        [⟨StepType.CreateFile, some "a", c, .pending⟩] =
        some ([FileItem.mk "a" "/a" .folder (some c) ch],
              [⟨StepType.CreateFile, some "a", c, .completed⟩])) ∧
    reconcile [FileItem.mk "x" "/x" .file (some "w") none]
      [⟨StepType.CreateFile, some "x/y/z", "v", .pending⟩] = none :=
  ⟨fun _ _ _ => rfl, rfl⟩

/-! C3 -/

/-- C3: reconciliation is idempotent on a fully processed batch: when every
action is already Completed, the pass performs no tree mutation and no status
change - the tree and the action list are returned unchanged. -/
theorem c3_reconcile_idempotent (files : List FileItem) (steps : List Step)
    (h : ∀ s ∈ steps, s.status = StepStatus.completed) :
    reconcile files steps = some (files, steps) := by
  have hfil : steps.filter (fun s => s.status = StepStatus.pending) = [] := by
    rw [List.filter_eq_nil_iff]
    intro s hs
    simp [h s hs]
  simp [reconcile, hfil]

/-- Witness for C3 at a concrete completed batch. -/
theorem c3_reconcile_idempotent_witness :
    reconcile [] [⟨StepType.CreateFile, some "a", "c", .completed⟩] =
      some ([], [⟨StepType.CreateFile, some "a", "c", .completed⟩]) :=
  c3_reconcile_idempotent _ _ (by decide)

/-! C7 -/

/-- C7: applying the single CreateFile action with path src/components/App.tsx
to an empty tree creates exactly three nodes - Folder src, Folder components
nested inside it, and File App.tsx inside that, holding the action's payload -
and each distinct path prefix gets exactly one Folder node. -/
theorem c7_folder_lazy_creation (code : String) :
    reconcile [] [⟨StepType.CreateFile, some "src/components/App.tsx", code, .pending⟩] =
      some ([FileItem.mk "src" "/src" .folder none (some
              [FileItem.mk "components" "/src/components" .folder none (some
                [FileItem.mk "App.tsx" "/src/components/App.tsx" .file (some code) none])])],
            [⟨StepType.CreateFile, some "src/components/App.tsx", code, .completed⟩]) :=
  rfl

/-! C8 -/

/-- C8: projection has no failure modes - a File node with absent content is
emitted as a file descriptor with empty contents, and a Folder node with no
children field is emitted as an empty directory descriptor. -/
theorem c8_projection_degenerate_defaults :
    (∀ (st : List (String × Desc)) (isRoot : Bool) (n p : String)
        (ch : Option (List FileItem)),
      (processFile st isRoot (FileItem.mk n p .file none ch)).1 = Desc.file "") ∧
    (∀ (st : List (String × Desc)) (isRoot : Bool) (n p : String)
        (c : Option String),
      (processFile st isRoot (FileItem.mk n p .folder c none)).1 = Desc.directory []) :=
  ⟨fun _ _ _ _ _ => rfl, fun _ _ _ _ _ => rfl⟩

/-! C10 -/

/-- C10: when no file is selected, invoking the edit operation with any new
content leaves the file tree entirely unchanged. -/
theorem c10_edit_without_selection_noop (newContent : String) (files : List FileItem) :
    handleCodeChange none newContent files = files := rfl

/-! C6 -/

/-- C6: deterministic first-seen order. Projecting the tree built from actions
a/b.txt, a/c.txt, a/b.txt in that order yields a directory descriptor for a
whose keys appear in first-seen order b.txt then c.txt; the mount entries of a
children list follow the children's own order; and a node absent from a level
is appended at the end of the existing sequence, never sorted in. -/
theorem c6_deterministic_first_seen_order :
    (∀ c1 c2 c3 : String,
      (reconcile []
          [⟨StepType.CreateFile, some "a/b.txt", c1, .pending⟩,
           ⟨StepType.CreateFile, some "a/c.txt", c2, .pending⟩,
           ⟨StepType.CreateFile, some "a/b.txt", c3, .pending⟩]).map
        (fun r => createMountStructure r.1) =
        some [("a", Desc.directory [("b.txt", Desc.file c3), ("c.txt", Desc.file c2)])]) ∧
    (∀ (st : List (String × Desc)) (ch : List FileItem),
      ((processList st ch).1).map Prod.fst = ch.map FileItem.name) ∧
    (∀ (level : List FileItem) (pre s : String) (rest : List String) (c : String)
        (level' : List FileItem),
      findByPath level (pre ++ "/" ++ s) = none →
      walk level pre (s :: rest) c = some level' →
      ∃ x, level' = level ++ [x] ∧ x.name = s ∧ x.path = pre ++ "/" ++ s) := by
  refine ⟨fun c1 c2 c3 => rfl, ?_, ?_⟩
  · intro st ch
    induction ch generalizing st with
    | nil => rfl
    | cons i is ih => simp [processList, ih]
  · intro level pre s rest c level' hfind hw
    cases rest with
    | nil =>
      rw [walk_single, hfind] at hw
      simp only [Option.some.injEq] at hw
      exact ⟨FileItem.mk s (pre ++ "/" ++ s) .file (some c) none, hw.symm, rfl, rfl⟩
    | cons s₂ rest₂ =>
      rw [walk_cons_cons] at hw
      simp only [hfind, Option.isSome_none, Bool.false_eq_true, if_false] at hw
      rw [findByPath_append_of_none _ _ _ hfind] at hw
      simp only [findByPath, FileItem.path, FileItem.children, if_pos] at hw
      cases hrec : walk [] (pre ++ "/" ++ s) (s₂ :: rest₂) c with
      | none =>
        rw [hrec] at hw
        exact absurd hw (by simp)
      | some ch₂ =>
        rw [hrec] at hw
        simp only [Option.some.injEq] at hw
        refine ⟨setChildren ch₂ (FileItem.mk s (pre ++ "/" ++ s) .folder none (some [])),
          ?_, rfl, rfl⟩
        rw [← hw]
        simp only [setChildrenFirst]
        rw [replaceFirst_append_of_none _ _ _ _ hfind]
        simp [replaceFirst, FileItem.path]

/-- Witness for C6's conditional append conjunct at a concrete level. -/
theorem c6_deterministic_first_seen_order_witness :
    ∃ x, ([FileItem.mk "z" "/z" .file none none,
           FileItem.mk "a" "/a" .file (some "x") none] : List FileItem) =
        [FileItem.mk "z" "/z" .file none none] ++ [x] ∧
      x.name = "a" ∧ x.path = "" ++ "/" ++ "a" :=
  c6_deterministic_first_seen_order.2.2 [FileItem.mk "z" "/z" .file none none]
    "" "a" [] "x"
    [FileItem.mk "z" "/z" .file none none,
     FileItem.mk "a" "/a" .file (some "x") none] rfl rfl

/-! C9 -/

theorem pathCount_cons (e : FlatEntry) (l : List FlatEntry) (p : String) :
    pathCount (e :: l) p = (if e.path = p then 1 else 0) + pathCount l p := by
  by_cases h : e.path = p
  · simp [pathCount, List.filter_cons, h]
    omega
  · simp [pathCount, List.filter_cons, h]

theorem pathCount_append (l₁ l₂ : List FlatEntry) (p : String) :
    pathCount (l₁ ++ l₂) p = pathCount l₁ p + pathCount l₂ p := by
  simp [pathCount, List.filter_append]

theorem map_updEntry_id (l : List FlatEntry) (p c : String)
    (h : pathCount l p = 0) : l.map (updEntry p c) = l := by
  induction l with
  | nil => rfl
  | cons e es ih =>
    rw [pathCount_cons] at h
    by_cases hp : e.path = p
    · rw [if_pos hp] at h
      exact absurd h (by omega)
    · rw [if_neg hp] at h
      simp only [List.map_cons]
      rw [ih (by omega)]
      simp [updEntry, hp]

mutual

theorem stripItem_upd (selPath newC : String) :
    ∀ i : FileItem, stripItem (updItem selPath newC i) = stripItem i
  | .mk _ p .file _ _ => by
    simp only [updItem]
    by_cases hp : p = selPath
    · rw [if_pos hp]
      rfl
    · rw [if_neg hp]
  | .mk _ p .folder _ none => by
    simp only [updItem]
    by_cases hp : p = selPath
    · rw [if_pos hp]
      rfl
    · rw [if_neg hp]
  | .mk _ p .folder _ (some l) => by
    simp only [updItem]
    by_cases hp : p = selPath
    · rw [if_pos hp]
      rfl
    · rw [if_neg hp]
      simp only [stripItem, stripChildren]
      rw [stripList_upd selPath newC l]

theorem stripList_upd (selPath newC : String) :
    ∀ l : List FileItem,
      stripList (updateFileContent selPath newC l) = stripList l
  | [] => rfl
  | i :: is => by
    simp only [updateFileContent, stripList]
    rw [stripItem_upd selPath newC i, stripList_upd selPath newC is]

end

mutual

theorem flattenItem_upd (p c : String) :
    ∀ i : FileItem, filesChildless i = true →
      pathCount (flattenItem i) p ≤ 1 →
      flattenItem (updItem p c i) = (flattenItem i).map (updEntry p c)
  | .mk n q .file ct none, _, _ => by
    simp only [updItem]
    by_cases hq : q = p
    · rw [if_pos hq]
      simp [updEntry, hq]
    · rw [if_neg hq]
      simp [updEntry, hq]
  | .mk _ _ .file _ (some _), h1, _ => absurd h1 (by simp [filesChildless])
  | .mk n q .folder ct none, _, _ => by
    simp only [updItem]
    by_cases hq : q = p
    · rw [if_pos hq]
      simp [updEntry, hq]
    · rw [if_neg hq]
      simp [updEntry, hq]
  | .mk n q .folder ct (some l), h1, h2 => by
    simp only [updItem]
    by_cases hq : q = p
    · rw [if_pos hq]
      have hch0 : pathCount (flattenList l) p = 0 := by
        rw [flattenItem_mk, pathCount_cons] at h2
        simp only [flattenChildren_some] at h2
        simp [hq] at h2
        omega
      simp only [flattenItem_mk, flattenChildren_some, List.map_cons]
      rw [map_updEntry_id _ _ _ hch0]
      simp [updEntry, hq]
    · rw [if_neg hq]
      have h1l : filesChildlessList l = true := by
        simp only [filesChildless, Bool.and_eq_true, filesChildlessOpt] at h1
        exact h1.2
      have hrest : pathCount (flattenList l) p ≤ 1 := by
        rw [flattenItem_mk, pathCount_cons] at h2
        simp only [flattenChildren_some] at h2
        simp [hq] at h2
        omega
      simp only [flattenItem_mk, flattenChildren_some, List.map_cons]
      rw [flattenList_upd p c l h1l hrest]
      simp [updEntry, hq]

theorem flattenList_upd (p c : String) :
    ∀ l : List FileItem, filesChildlessList l = true →
      pathCount (flattenList l) p ≤ 1 →
      flattenList (updateFileContent p c l) = (flattenList l).map (updEntry p c)
  | [], _, _ => rfl
  | i :: is, h1, h2 => by
    simp only [filesChildlessList, Bool.and_eq_true] at h1
    rw [flattenList_cons, pathCount_append] at h2
    simp only [updateFileContent, flattenList_cons, List.map_append]
    rw [flattenItem_upd p c i h1.1 (by omega), flattenList_upd p c is h1.2 (by omega)]

end

/-- C9: edit isolation. For a tree whose File nodes carry no children lists and
holding exactly one node at the edited path, a File: the edit keeps the whole
skeleton of the tree (names, paths, kinds, children structure) unchanged, and
the preorder list of entries changes exactly by replacing the content of
entries at the edited path with the new content - every other node keeps its
name, path, kind and content. -/
theorem c9_edit_isolation (items : List FileItem) (p c : String) (e₀ : FlatEntry)
    (h1 : filesChildlessList items = true)
    (h2 : entriesAt items p = [e₀])
    (h3 : e₀.type = FileType.file) :
    stripList (updateFileContent p c items) = stripList items ∧
    flattenList (updateFileContent p c items) =
      (flattenList items).map (updEntry p c) := by
  refine ⟨stripList_upd p c items, flattenList_upd p c items h1 ?_⟩
  have hcount : pathCount (flattenList items) p = 1 := by
    have : (flattenList items).filter (fun e => e.path = p) = [e₀] := h2
    simp [pathCount, this]
  omega

/-- Witness for C9 at the tree a/b.txt with the File b edited. -/
theorem c9_edit_isolation_witness :
    stripList (updateFileContent "/a/b" "new"
        [FileItem.mk "a" "/a" .folder none
          (some [FileItem.mk "b" "/a/b" .file (some "old") none])]) =
      stripList
        [FileItem.mk "a" "/a" .folder none
          (some [FileItem.mk "b" "/a/b" .file (some "old") none])] ∧
    flattenList (updateFileContent "/a/b" "new"
        [FileItem.mk "a" "/a" .folder none
          (some [FileItem.mk "b" "/a/b" .file (some "old") none])]) =
      (flattenList
        [FileItem.mk "a" "/a" .folder none
          (some [FileItem.mk "b" "/a/b" .file (some "old") none])]).map
        (updEntry "/a/b" "new") :=
  c9_edit_isolation
    [FileItem.mk "a" "/a" .folder none
      (some [FileItem.mk "b" "/a/b" .file (some "old") none])]
    "/a/b" "new" ⟨"b", "/a/b", FileType.file, some "old"⟩
    (by decide) (by decide) rfl

end SiteCrafter
